import Mathlib

set_option maxHeartbeats 1000000
set_option linter.constructorNameAsVariable false
set_option linter.unusedVariables false

/-!
Shallow embedding of `solver.py`: a 9×9 sudoku solver combining candidate
propagation (`solve_single_position`) with recursive backtracking search
(`solve`).  Cells hold natural numbers, `0` denoting an empty cell.
-/

abbrev Grid := Fin 9 → Fin 9 → ℕ

/-- Build a grid from a list of rows (missing entries default to `0`),
mirroring the construction of a `Sudoku` object from a two-dimensional
array literal. -/
def gridOfLists (l : List (List ℕ)) : Grid := fun i j => (l.getD i.val []).getD j.val 0

/-- `set(i for i in range(1, 10))`: the digit universe used throughout
`solver.py`. -/
def numbers : Finset ℕ := {1, 2, 3, 4, 5, 6, 7, 8, 9}

/-- `group_coordinate_to_row_coordinate` from `solver.py`:
`(i // 3 + (group - (group % 3)), i % 3 + 3 * (group % 3))`. -/
def group_coordinate_to_row_coordinate (group i : ℕ) : ℕ × ℕ :=
  (i / 3 + (group - group % 3), i % 3 + 3 * (group % 3))

/-- The `rows` property: `rows[i][j] = field[i][j]`. -/
def rowAt (g : Grid) (i : Fin 9) : Fin 9 → ℕ := fun j => g i j

/-- The `columns` property (the transpose): `columns[i][j] = field[j][i]`. -/
def colAt (g : Grid) (i : Fin 9) : Fin 9 → ℕ := fun j => g j i

/-- Row of the grid cell shown at position `(grp, idx)` of the block view. -/
def cellRow (grp idx : Fin 9) : Fin 9 :=
  ⟨3 * (grp.val / 3) + idx.val / 3, by have h1 := grp.isLt; have h2 := idx.isLt; omega⟩

/-- Column of the grid cell shown at position `(grp, idx)` of the block view. -/
def cellCol (grp idx : Fin 9) : Fin 9 :=
  ⟨idx.val % 3 + 3 * (grp.val % 3), by have h1 := grp.isLt; have h2 := idx.isLt; omega⟩

/-- The `groups` property.  The python loop stores
`groups[j + 3*k][i + 3*l] = field[3*k + l][i + 3*j]` for `i, j, k, l < 3`;
substituting `a = j + 3*k`, `b = i + 3*l` (so `k = a / 3`, `j = a % 3`,
`l = b / 3`, `i = b % 3`) gives the closed form
`groups[a][b] = field[3*(a/3) + b/3][b%3 + 3*(a%3)]`. -/
def groups (g : Grid) (grp idx : Fin 9) : ℕ := g (cellRow grp idx) (cellCol grp idx)

/-- The body of the `valid` loop for a single group `v` (a row, a column or a
block): `len(numbers - set(row)) == len(row) - np.count_nonzero(row)`. -/
def groupCheck (v : Fin 9 → ℕ) : Bool :=
  (numbers \ Finset.image v Finset.univ).card == (Finset.univ.filter fun j => v j = 0).card

/-- The `valid` property of `Sudoku`: every row, column and block passes
`groupCheck`. -/
def valid (g : Grid) : Bool :=
  ((List.finRange 9).all fun i => groupCheck (rowAt g i)) &&
  ((List.finRange 9).all fun i => groupCheck (colAt g i)) &&
  ((List.finRange 9).all fun i => groupCheck (groups g i))

/-- The `filled` property: `np.count_nonzero(self.field) == self.field.size`. -/
def filled (g : Grid) : Bool :=
  ((Finset.univ : Finset (Fin 9 × Fin 9)).filter fun p => g p.1 p.2 ≠ 0).card == 81

/-- Number of empty cells of a grid: the decreasing measure of both loops. -/
def zeros (g : Grid) : ℕ :=
  ((Finset.univ : Finset (Fin 9 × Fin 9)).filter fun p => g p.1 p.2 = 0).card

/-- Values appearing in row `i` (`set(rows[i])`). -/
def rowVals (g : Grid) (i : Fin 9) : Finset ℕ := Finset.image (rowAt g i) Finset.univ

/-- Values appearing in column `i` (`set(cols[i])`). -/
def colVals (g : Grid) (i : Fin 9) : Finset ℕ := Finset.image (colAt g i) Finset.univ

/-- Values appearing in block `i` (`set(groups[i])`). -/
def grpVals (g : Grid) (i : Fin 9) : Finset ℕ := Finset.image (groups g i) Finset.univ

/-- Index of the block containing cell `(i, j)`: the inverse image under
`group_coordinate_to_row_coordinate`. -/
def blockIdx (i j : Fin 9) : Fin 9 :=
  ⟨3 * (i.val / 3) + j.val / 3, by have h1 := i.isLt; have h2 := j.isLt; omega⟩

/-- Within-block index of cell `(i, j)`. -/
def innerIdx (i j : Fin 9) : Fin 9 :=
  ⟨3 * (i.val % 3) + j.val % 3, by have h1 := i.isLt; have h2 := j.isLt; omega⟩

/-- `get_possible_values`, per cell.  The three passes of the source (rows,
then columns, then groups) become three successive intersections on each
cell: the row pass replaces the initial full set `numbers` by
`numbers ∩ (numbers \ rowVals)` for an empty cell and by `∅` for a filled
one, and the column and group passes, which are guarded by
`len(missing_numbers) > 0` in the source, intersect further.  Each pass only
touches a cell whose value is `0`. -/
def possible_values (g : Grid) (i j : Fin 9) : Finset ℕ :=
  let afterRow := if g i j = 0 then numbers ∩ (numbers \ rowVals g i) else (∅ : Finset ℕ)
  let colMiss := numbers \ colVals g j
  let afterCol := if 0 < colMiss.card ∧ g i j = 0 then afterRow ∩ colMiss else afterRow
  let grpMiss := numbers \ grpVals g (blockIdx i j)
  if 0 < grpMiss.card ∧ g i j = 0 then afterCol ∩ grpMiss else afterCol

/-- One pass of the `while` loop of `solve_single_position`: every cell whose
candidate set (computed from the grid as it was at the start of the pass)
is a singleton and whose value is `0` receives that single candidate
(`possible_values[i][j].pop()`). -/
def singlePass (g : Grid) : Grid := fun i j =>
  if h : (possible_values g i j).card = 1 ∧ g i j = 0 then
    (possible_values g i j).min' (Finset.card_pos.mp (by rw [h.1]; exact Nat.one_pos))
  else g i j

/-- `np.array_equal` on two grids. -/
def gridEq (a b : Grid) : Bool :=
  (List.finRange 9).all fun i => (List.finRange 9).all fun j => a i j == b i j

/-- Row-by-row listing of a grid (the in-memory `field` array). -/
def showGrid (g : Grid) : List (List ℕ) :=
  (List.finRange 9).map fun i => (List.finRange 9).map fun j => g i j

/-- Store a grid as its array of entries.  Extensionally the identity
(`materialize_eq`); it only makes concrete evaluation share work, the way the
python `field` array stores the result of a pass instead of recomputing it. -/
def materialize (g : Grid) : Grid := gridOfLists (showGrid g)

/-- The `while` loop of `solve_single_position`, with an explicit fuel
(`82` is always sufficient, see `sspFuel_fix`): run passes until a pass
changes nothing. -/
def sspFuel : ℕ → Grid → Grid
  | 0, g => g
  | n + 1, g =>
    if gridEq (singlePass g) g then g else sspFuel n (materialize (singlePass g))

/-- `solve_single_position`. -/
def solve_single_position (g : Grid) : Grid := sspFuel 82 g

/-- Number of executions of the body of the `while` loop of
`solve_single_position` (the body always runs at least once because the loop
guard starts with `old_fields is None`). -/
def sspItersFuel : ℕ → Grid → ℕ
  | 0, _ => 0
  | n + 1, g => if gridEq (singlePass g) g then 1 else 1 + sspItersFuel n (singlePass g)

/-- Iteration count of the `solve_single_position` loop. -/
def sspIters (g : Grid) : ℕ := sspItersFuel 82 g

/-- `min((len(possible_values[i][j]) for j in range(9) if len(...) > 0),
default=20)`: the least positive candidate-set size within row `i`
(`List.foldr min 20` computes `min` with default `20`, the sizes being at
most `9`). -/
def rowMinPos (g : Grid) (i : Fin 9) : ℕ :=
  (((List.finRange 9).filter fun j => 0 < (possible_values g i j).card).map fun j =>
    (possible_values g i j).card).foldr min 20

/-- `min_possible_options`: the nested minimum over the nine rows. -/
def minPos (g : Grid) : ℕ :=
  (((List.finRange 9)).map fun i => rowMinPos g i).foldr min 20

/-- The row-major scan of `solve` for the first cell whose candidate-set size
equals `m`. -/
def firstMinCell (g : Grid) (m : ℕ) : Option (Fin 9 × Fin 9) :=
  (List.finRange 9).findSome? fun i =>
    ((List.finRange 9).find? fun j => (possible_values g i j).card == m).map fun j => (i, j)

/-- The elements of a candidate set, as popped one by one by the branch loop
of `solve` (the source pops an unordered python set exactly `card` times;
here the elements are enumerated in increasing order). -/
def candidateList (s : Finset ℕ) : List ℕ := (List.range 10).filter fun v => decide (v ∈ s)

/-- Write `v` into cell `(x, y)` of a clone of the grid
(`sudoku_copy.field[x][y] = ...`). -/
def update (g : Grid) (x y : Fin 9) (v : ℕ) : Grid := fun i j =>
  if i = x ∧ j = y then v else g i j

/-- The branch loop of `solve`: try each candidate on a clone, adopt the
first recursive result that is filled and valid (`self.field =
sudoku_copy.field`), otherwise leave the grid unchanged. -/
def tryBranches (f : Grid → Grid) (g : Grid) (x y : Fin 9) : List ℕ → Grid
  | [] => g
  | v :: vs =>
    if filled (f (update g x y v)) && valid (f (update g x y v)) then f (update g x y v)
    else tryBranches f g x y vs

/-- `solve`, with an explicit recursion fuel: propagate, stop when filled,
give up when every candidate set is empty, otherwise branch on the first
cell realising the minimum candidate-set size.  Fuel `82` is always
sufficient because every recursive call strictly decreases `zeros`. -/
def solveFuel : ℕ → Grid → Grid
  | 0, g => g
  | n + 1, g =>
    if filled (solve_single_position g) then solve_single_position g
    else if minPos (solve_single_position g) = 20 then solve_single_position g
    else
      (firstMinCell (solve_single_position g) (minPos (solve_single_position g))).elim
        (solve_single_position g) fun xy =>
          tryBranches (solveFuel n) (solve_single_position g) xy.1 xy.2
            (candidateList (possible_values (solve_single_position g) xy.1 xy.2))

/-- `solve`. -/
def solve (g : Grid) : Grid := solveFuel 82 g

/-- Candidate sets as §4.2 of the spec describes them: an empty cell gets the
three-way intersection of the missing-digit sets of its row, column and
block, a filled cell gets the empty set. -/
def possible_values_spec (g : Grid) (i j : Fin 9) : Finset ℕ :=
  if g i j = 0 then
    (numbers \ rowVals g i) ∩ (numbers \ colVals g j) ∩ (numbers \ grpVals g (blockIdx i j))
  else ∅

/-- A group as the spec's validity invariant describes it: the non-zero
entries are pairwise distinct, and the number of digits `1`–`9` absent from
the group equals the number of zero cells in the group. -/
def groupSpecOK (v : Fin 9 → ℕ) : Prop :=
  (∀ a b, v a ≠ 0 → v a = v b → a = b) ∧
  (numbers \ Finset.image v Finset.univ).card = (Finset.univ.filter fun j => v j = 0).card

/-- The spec's validity invariant, over all 27 groups. -/
def validSpec (g : Grid) : Prop :=
  (∀ i, groupSpecOK (rowAt g i)) ∧ (∀ i, groupSpecOK (colAt g i)) ∧
  (∀ i, groupSpecOK (groups g i))

/-- `t` agrees with `g` on every cell that is already placed in `g`. -/
def extendsG (t g : Grid) : Prop := ∀ i j, g i j ≠ 0 → t i j = g i j

/-- `t` is a valid completion of `g`. -/
def completionOf (t g : Grid) : Prop := extendsG t g ∧ filled t = true ∧ valid t = true

/-- `s` is the unique valid completion of `g`. -/
def uniqueCompletion (s g : Grid) : Prop := completionOf s g ∧ ∀ t, completionOf t g → t = s

/-- Read a cell of the grid from plain natural coordinates (out-of-range
coordinates give `0`). -/
def gridGet (g : Grid) (r c : ℕ) : ℕ := if h : r < 9 ∧ c < 9 then g ⟨r, h.1⟩ ⟨c, h.2⟩ else 0

/-- The fixed 9×9 test input `INIT_FIELD` of `test.py`. -/
def INIT_FIELD : Grid := gridOfLists
  [[8, 0, 0, 0, 1, 0, 6, 0, 9],
   [0, 0, 1, 9, 7, 0, 0, 2, 0],
   [9, 4, 0, 8, 2, 6, 3, 0, 1],
   [0, 0, 4, 6, 0, 0, 0, 0, 0],
   [0, 9, 0, 0, 0, 0, 1, 6, 0],
   [5, 0, 6, 0, 3, 2, 9, 8, 0],
   [4, 0, 0, 0, 5, 8, 7, 1, 0],
   [6, 2, 0, 1, 0, 0, 5, 3, 0],
   [0, 5, 8, 0, 0, 7, 4, 0, 2]]

/-- The precomputed expected block view `INIT_FIELD_GROUPS` of `test.py`. -/
def INIT_FIELD_GROUPS : Grid := gridOfLists
  [[8, 0, 0, 0, 0, 1, 9, 4, 0],
   [0, 1, 0, 9, 7, 0, 8, 2, 6],
   [6, 0, 9, 0, 2, 0, 3, 0, 1],
   [0, 0, 4, 0, 9, 0, 5, 0, 6],
   [6, 0, 0, 0, 0, 0, 0, 3, 2],
   [0, 0, 0, 1, 6, 0, 9, 8, 0],
   [4, 0, 0, 6, 2, 0, 0, 5, 8],
   [0, 5, 8, 1, 0, 0, 0, 0, 7],
   [7, 1, 0, 5, 3, 0, 4, 0, 2]]

/-- A complete, rule-valid grid (each row a cyclic pattern). -/
def sFull : Grid := gridOfLists
  [[1, 2, 3, 4, 5, 6, 7, 8, 9],
   [4, 5, 6, 7, 8, 9, 1, 2, 3],
   [7, 8, 9, 1, 2, 3, 4, 5, 6],
   [2, 3, 1, 5, 6, 4, 8, 9, 7],
   [5, 6, 4, 8, 9, 7, 2, 3, 1],
   [8, 9, 7, 2, 3, 1, 5, 6, 4],
   [3, 1, 2, 6, 4, 5, 9, 7, 8],
   [6, 4, 5, 9, 7, 8, 3, 1, 2],
   [9, 7, 8, 3, 1, 2, 6, 4, 5]]

/-- A valid partial grid on which the propagation pass of
`solve_single_position` commits the digit `5` into both `(0,0)` and `(0,1)`
(both cells have candidate set `{5}` with respect to the stale snapshot),
leaving an invalid grid. -/
def gC4 : Grid := gridOfLists
  [[0, 0, 1, 2, 3, 4, 7, 8, 9],
   [6, 0, 0, 0, 0, 0, 0, 0, 0],
   [0, 0, 0, 0, 0, 0, 0, 0, 0],
   [0, 0, 0, 0, 0, 0, 0, 0, 0],
   [0, 6, 0, 0, 0, 0, 0, 0, 0],
   [0, 0, 0, 0, 0, 0, 0, 0, 0],
   [0, 0, 0, 0, 0, 0, 0, 0, 0],
   [0, 0, 0, 0, 0, 0, 0, 0, 0],
   [0, 0, 0, 0, 0, 0, 0, 0, 0]]

/-- A fully filled but invalid grid (every cell holds `5`). -/
def gAll5 : Grid := fun _ _ => 5

/-- The completely empty grid. -/
def gAllZero : Grid := fun _ _ => 0
/-! ### Basic infrastructure -/

theorem materialize_eq (g : Grid) : materialize g = g := by
  funext i j
  fin_cases i <;> fin_cases j <;> rfl

theorem gridEq_iff {a b : Grid} : gridEq a b = true ↔ a = b := by
  unfold gridEq
  simp only [List.all_eq_true, List.mem_finRange, beq_iff_eq, true_implies]
  constructor
  · intro h
    funext i j
    exact h i j
  · intro h i j
    rw [h]

theorem numbers_card : numbers.card = 9 := by decide

theorem mem_numbers {v : ℕ} : v ∈ numbers ↔ 1 ≤ v ∧ v ≤ 9 := by
  simp only [numbers, Finset.mem_insert, Finset.mem_singleton]
  omega

theorem filled_iff {g : Grid} : filled g = true ↔ ∀ i j, g i j ≠ 0 := by
  unfold filled
  rw [beq_iff_eq]
  constructor
  · intro h i j
    have huniv : ((Finset.univ : Finset (Fin 9 × Fin 9)).filter fun p => g p.1 p.2 ≠ 0) =
        Finset.univ := (Finset.card_eq_iff_eq_univ _).mp (by simpa using h)
    have : (i, j) ∈ (Finset.univ : Finset (Fin 9 × Fin 9)).filter fun p => g p.1 p.2 ≠ 0 := by
      rw [huniv]; exact Finset.mem_univ _
    exact (Finset.mem_filter.mp this).2
  · intro h
    have huniv : ((Finset.univ : Finset (Fin 9 × Fin 9)).filter fun p => g p.1 p.2 ≠ 0) =
        Finset.univ := by
      apply Finset.filter_true_of_mem
      intro p _
      exact h p.1 p.2
    rw [huniv]
    simp

theorem zeros_le_81 (g : Grid) : zeros g ≤ 81 := by
  unfold zeros
  calc ((Finset.univ : Finset (Fin 9 × Fin 9)).filter fun p => g p.1 p.2 = 0).card
      ≤ (Finset.univ : Finset (Fin 9 × Fin 9)).card := Finset.card_filter_le _ _
    _ = 81 := by simp

theorem zeros_eq_81 {g : Grid} (h : zeros g = 81) : g = gAllZero := by
  have huniv : ((Finset.univ : Finset (Fin 9 × Fin 9)).filter fun p => g p.1 p.2 = 0) =
      Finset.univ := (Finset.card_eq_iff_eq_univ _).mp (by simpa [zeros] using h)
  funext i j
  have : (i, j) ∈ (Finset.univ : Finset (Fin 9 × Fin 9)).filter fun p => g p.1 p.2 = 0 := by
    rw [huniv]; exact Finset.mem_univ _
  exact (Finset.mem_filter.mp this).2

/-! ### Coordinate arithmetic for the block view -/

theorem cellRow_blockIdx (i j : Fin 9) : cellRow (blockIdx i j) (innerIdx i j) = i := by
  have h1 := i.isLt
  have h2 := j.isLt
  apply Fin.ext
  show 3 * ((3 * (i.val / 3) + j.val / 3) / 3) + (3 * (i.val % 3) + j.val % 3) / 3 = i.val
  omega

theorem cellCol_blockIdx (i j : Fin 9) : cellCol (blockIdx i j) (innerIdx i j) = j := by
  have h1 := i.isLt
  have h2 := j.isLt
  apply Fin.ext
  show (3 * (i.val % 3) + j.val % 3) % 3 + 3 * ((3 * (i.val / 3) + j.val / 3) % 3) = j.val
  omega

theorem groups_blockIdx (g : Grid) (i j : Fin 9) :
    groups g (blockIdx i j) (innerIdx i j) = g i j := by
  rw [groups, cellRow_blockIdx, cellCol_blockIdx]

theorem blockIdx_cellRow (grp idx : Fin 9) :
    blockIdx (cellRow grp idx) (cellCol grp idx) = grp := by
  have h1 := grp.isLt
  have h2 := idx.isLt
  apply Fin.ext
  show 3 * ((3 * (grp.val / 3) + idx.val / 3) / 3) +
    (idx.val % 3 + 3 * (grp.val % 3)) / 3 = grp.val
  omega

theorem innerIdx_cellRow (grp idx : Fin 9) :
    innerIdx (cellRow grp idx) (cellCol grp idx) = idx := by
  have h1 := grp.isLt
  have h2 := idx.isLt
  apply Fin.ext
  show 3 * ((3 * (grp.val / 3) + idx.val / 3) % 3) +
    (idx.val % 3 + 3 * (grp.val % 3)) % 3 = idx.val
  omega

/-! ### The validity check, one group at a time -/

theorem valid_iff {g : Grid} : valid g = true ↔
    (∀ i, groupCheck (rowAt g i) = true) ∧ (∀ i, groupCheck (colAt g i) = true) ∧
    (∀ i, groupCheck (groups g i) = true) := by
  unfold valid
  simp only [Bool.and_eq_true, List.all_eq_true, List.mem_finRange, true_implies, and_assoc]

/-- The counting heart of `valid`: if a group passes `groupCheck`, then its
non-zero entries are digits `1`–`9` and are pairwise distinct. -/
theorem groupCheck_strong {v : Fin 9 → ℕ} (h : groupCheck v = true) :
    (∀ a, v a ≠ 0 → v a ∈ numbers) ∧ ∀ a b, v a ≠ 0 → v a = v b → a = b := by
  unfold groupCheck at h
  rw [beq_iff_eq] at h
  set N : Finset (Fin 9) := Finset.univ.filter fun a => ¬ v a = 0 with hN
  have hz : (Finset.univ.filter fun a => v a = 0).card + N.card = 9 := by
    have := Finset.filter_card_add_filter_neg_card_eq_card
      (s := (Finset.univ : Finset (Fin 9))) (p := fun a => v a = 0)
    simpa [hN] using this
  have hsd : (numbers \ Finset.image v Finset.univ).card +
      (numbers ∩ Finset.image v Finset.univ).card = 9 := by
    have := Finset.card_sdiff_add_card_inter numbers (Finset.image v Finset.univ)
    rw [numbers_card] at this
    exact this
  have hinter : (numbers ∩ Finset.image v Finset.univ).card = N.card := by omega
  have hsub : numbers ∩ Finset.image v Finset.univ ⊆ Finset.image v N := by
    intro d hd
    rcases Finset.mem_inter.mp hd with ⟨hd1, hd2⟩
    rcases Finset.mem_image.mp hd2 with ⟨a, -, rfl⟩
    refine Finset.mem_image.mpr ⟨a, Finset.mem_filter.mpr ⟨Finset.mem_univ a, ?_⟩, rfl⟩
    intro h0
    rw [h0] at hd1
    exact absurd (mem_numbers.mp hd1) (by omega)
  have hle1 : N.card ≤ (Finset.image v N).card := hinter ▸ Finset.card_le_card hsub
  have him : (Finset.image v N).card = N.card := le_antisymm Finset.card_image_le hle1
  have hinj : Set.InjOn v N := Finset.card_image_iff.mp him
  have heq : numbers ∩ Finset.image v Finset.univ = Finset.image v N :=
    Finset.eq_of_subset_of_card_le hsub (by omega)
  constructor
  · intro a ha
    have hmem : v a ∈ Finset.image v N :=
      Finset.mem_image.mpr ⟨a, Finset.mem_filter.mpr ⟨Finset.mem_univ a, ha⟩, rfl⟩
    rw [← heq] at hmem
    exact (Finset.mem_inter.mp hmem).1
  · intro a b ha hab
    have hb : v b ≠ 0 := hab ▸ ha
    exact hinj (Finset.mem_coe.mpr (Finset.mem_filter.mpr ⟨Finset.mem_univ a, ha⟩))
      (Finset.mem_coe.mpr (Finset.mem_filter.mpr ⟨Finset.mem_univ b, hb⟩)) hab

/-! ### Candidate sets -/

theorem zero_mem_colVals {g : Grid} {i j : Fin 9} (hz : g i j = 0) : 0 ∈ colVals g j :=
  Finset.mem_image.mpr ⟨i, Finset.mem_univ i, hz⟩

theorem zero_mem_grpVals {g : Grid} {i j : Fin 9} (hz : g i j = 0) :
    0 ∈ grpVals g (blockIdx i j) :=
  Finset.mem_image.mpr ⟨innerIdx i j, Finset.mem_univ _, by rw [groups_blockIdx]; exact hz⟩

/-- A group that still contains an empty cell cannot contain all nine digits,
so the `len(missing_numbers) > 0` guards of `get_possible_values` never
disable a pass that would matter. -/
theorem missing_pos_of_zero_mem {s : Finset ℕ} (hcard : s.card ≤ 9) (h0 : 0 ∈ s) :
    0 < (numbers \ s).card := by
  rcases Finset.card_pos.mpr ⟨0, h0⟩ with -
  by_contra hc
  push_neg at hc
  interval_cases hcd : (numbers \ s).card
  have hemp : numbers \ s = ∅ := Finset.card_eq_zero.mp hcd
  have hsub : numbers ⊆ s := by
    intro x hx
    by_contra hxs
    have : x ∈ numbers \ s := Finset.mem_sdiff.mpr ⟨hx, hxs⟩
    rw [hemp] at this
    exact absurd this (Finset.not_mem_empty x)
  have hbig : insert 0 numbers ⊆ s := Finset.insert_subset h0 hsub
  have h10 : (insert 0 numbers).card = 10 := by decide
  have := Finset.card_le_card hbig
  omega

theorem colVals_card_le (g : Grid) (j : Fin 9) : (colVals g j).card ≤ 9 := by
  calc (colVals g j).card ≤ (Finset.univ : Finset (Fin 9)).card := Finset.card_image_le
    _ = 9 := by simp

theorem grpVals_card_le (g : Grid) (i : Fin 9) : (grpVals g i).card ≤ 9 := by
  calc (grpVals g i).card ≤ (Finset.univ : Finset (Fin 9)).card := Finset.card_image_le
    _ = 9 := by simp

/-- The guards of the column and group passes never fire on an empty cell, so
`get_possible_values` computes exactly the three-way intersection of the
missing-digit sets (and `∅` on a filled cell). -/
theorem pv_eq_spec (g : Grid) (i j : Fin 9) :
    possible_values g i j = possible_values_spec g i j := by
  by_cases hz : g i j = 0
  · have hcol : 0 < (numbers \ colVals g j).card :=
      missing_pos_of_zero_mem (colVals_card_le g j) (zero_mem_colVals hz)
    have hgrp : 0 < (numbers \ grpVals g (blockIdx i j)).card :=
      missing_pos_of_zero_mem (grpVals_card_le g _) (zero_mem_grpVals hz)
    simp only [possible_values, possible_values_spec, hz, if_true, and_true]
    rw [if_pos hgrp, if_pos hcol, Finset.inter_eq_right.mpr Finset.sdiff_subset]
  · simp [possible_values, possible_values_spec, hz]

theorem pv_subset_numbers (g : Grid) (i j : Fin 9) : possible_values g i j ⊆ numbers := by
  rw [pv_eq_spec, possible_values_spec]
  by_cases hz : g i j = 0
  · rw [if_pos hz]
    exact (Finset.inter_subset_left.trans Finset.inter_subset_left).trans Finset.sdiff_subset
  · rw [if_neg hz]
    exact Finset.empty_subset _

theorem pv_card_le (g : Grid) (i j : Fin 9) : (possible_values g i j).card ≤ 9 := by
  calc (possible_values g i j).card ≤ numbers.card :=
      Finset.card_le_card (pv_subset_numbers g i j)
    _ = 9 := numbers_card

theorem pv_filled {g : Grid} {i j : Fin 9} (h : g i j ≠ 0) : possible_values g i j = ∅ := by
  rw [pv_eq_spec, possible_values_spec, if_neg h]

attribute [irreducible] possible_values

theorem mem_pv_numbers {g : Grid} {i j : Fin 9} {v : ℕ} (h : v ∈ possible_values g i j) :
    v ∈ numbers := by
  rw [pv_eq_spec, possible_values_spec] at h
  by_cases hz : g i j = 0
  · rw [if_pos hz] at h
    exact (Finset.mem_sdiff.mp (Finset.mem_inter.mp (Finset.mem_inter.mp h).1).1).1
  · rw [if_neg hz] at h
    exact absurd h (Finset.not_mem_empty v)

theorem mem_pv_pos {g : Grid} {i j : Fin 9} {v : ℕ} (h : v ∈ possible_values g i j) :
    1 ≤ v ∧ v ≤ 9 := mem_numbers.mp (mem_pv_numbers h)

theorem mem_pv_zero {g : Grid} {i j : Fin 9} {v : ℕ} (h : v ∈ possible_values g i j) :
    g i j = 0 := by
  by_contra hnz
  rw [pv_filled hnz] at h
  exact absurd h (Finset.not_mem_empty v)

/-- Candidate soundness: the value a valid completion places in an empty cell
always survives `get_possible_values`. -/
theorem mem_pv_of_completion {t g : Grid} (ht : completionOf t g) {i j : Fin 9}
    (hz : g i j = 0) : t i j ∈ possible_values g i j := by
  have hext := ht.1
  have htnz : ∀ a b, t a b ≠ 0 := filled_iff.mp ht.2.1
  have hrow := (valid_iff.mp ht.2.2).1
  have hcol := (valid_iff.mp ht.2.2).2.1
  have hgrp := (valid_iff.mp ht.2.2).2.2
  rw [pv_eq_spec, possible_values_spec, if_pos hz]
  refine Finset.mem_inter.mpr ⟨Finset.mem_inter.mpr ⟨?_, ?_⟩, ?_⟩
  · refine Finset.mem_sdiff.mpr ⟨(groupCheck_strong (hrow i)).1 j (htnz i j), ?_⟩
    intro hmem
    rcases Finset.mem_image.mp hmem with ⟨b, -, hb⟩
    have hgb : g i b ≠ 0 := by
      intro h0
      rw [rowAt] at hb
      rw [h0] at hb
      exact htnz i j hb.symm
    have htb : t i b = g i b := hext i b hgb
    have hjb : j = b := (groupCheck_strong (hrow i)).2 j b (htnz i j) (by
      show t i j = t i b
      rw [htb]
      exact hb.symm)
    rw [← hjb] at hgb
    exact hgb hz
  · refine Finset.mem_sdiff.mpr ⟨(groupCheck_strong (hrow i)).1 j (htnz i j), ?_⟩
    intro hmem
    rcases Finset.mem_image.mp hmem with ⟨a, -, ha⟩
    have hga : g a j ≠ 0 := by
      intro h0
      rw [colAt] at ha
      rw [h0] at ha
      exact htnz i j ha.symm
    have hta : t a j = g a j := hext a j hga
    have hia : i = a := (groupCheck_strong (hcol j)).2 i a (htnz i j) (by
      show colAt t j i = colAt t j a
      show t i j = t a j
      rw [hta]
      exact ha.symm)
    rw [← hia] at hga
    exact hga hz
  · refine Finset.mem_sdiff.mpr ⟨(groupCheck_strong (hrow i)).1 j (htnz i j), ?_⟩
    intro hmem
    rcases Finset.mem_image.mp hmem with ⟨idx, -, hidx⟩
    have hgc : g (cellRow (blockIdx i j) idx) (cellCol (blockIdx i j) idx) ≠ 0 := by
      intro h0
      rw [groups] at hidx
      rw [h0] at hidx
      exact htnz i j hidx.symm
    have htc : t (cellRow (blockIdx i j) idx) (cellCol (blockIdx i j) idx) =
        g (cellRow (blockIdx i j) idx) (cellCol (blockIdx i j) idx) := hext _ _ hgc
    have hini : innerIdx i j = idx :=
      (groupCheck_strong (hgrp (blockIdx i j))).2 (innerIdx i j) idx
        (by rw [groups_blockIdx]; exact htnz i j) (by
          show groups t (blockIdx i j) (innerIdx i j) = groups t (blockIdx i j) idx
          rw [groups_blockIdx]
          show t i j = t (cellRow (blockIdx i j) idx) (cellCol (blockIdx i j) idx)
          rw [htc]
          exact hidx.symm)
    rw [← hini, cellRow_blockIdx, cellCol_blockIdx] at hgc
    exact hgc hz

/-! ### The propagation pass -/

theorem extendsG_refl (g : Grid) : extendsG g g := fun _ _ _ => rfl

theorem extendsG_trans {a b c : Grid} (hab : extendsG a b) (hbc : extendsG b c) :
    extendsG a c := by
  intro i j hc
  have hb : b i j = c i j := hbc i j hc
  have hbne : b i j ≠ 0 := by rw [hb]; exact hc
  rw [hab i j hbne, hb]

theorem singlePass_ne {g : Grid} {i j : Fin 9} (h : g i j ≠ 0) :
    singlePass g i j = g i j := by
  unfold singlePass
  exact dif_neg fun hc => h hc.2

theorem singlePass_extends (g : Grid) : extendsG (singlePass g) g :=
  fun _ _ h => singlePass_ne h

theorem singlePass_changed {g : Grid} {i j : Fin 9} (h : singlePass g i j ≠ g i j) :
    g i j = 0 ∧ (possible_values g i j).card = 1 ∧
      singlePass g i j ∈ possible_values g i j := by
  unfold singlePass at h ⊢
  by_cases hc : (possible_values g i j).card = 1 ∧ g i j = 0
  · rw [dif_pos hc] at h ⊢
    exact ⟨hc.2, hc.1, Finset.min'_mem _ _⟩
  · rw [dif_neg hc] at h
    exact absurd rfl h

theorem zeros_le_of_extends {a b : Grid} (h : extendsG a b) : zeros a ≤ zeros b := by
  apply Finset.card_le_card
  intro p hp
  rw [Finset.mem_filter] at hp ⊢
  refine ⟨Finset.mem_univ p, ?_⟩
  by_contra hb
  have heq := h p.1 p.2 hb
  have hzero := hp.2
  omega

theorem zeros_singlePass_lt {g : Grid} (h : singlePass g ≠ g) :
    zeros (singlePass g) < zeros g := by
  apply Finset.card_lt_card
  have hsub : ((Finset.univ : Finset (Fin 9 × Fin 9)).filter fun p => singlePass g p.1 p.2 = 0)
      ⊆ (Finset.univ : Finset (Fin 9 × Fin 9)).filter fun p => g p.1 p.2 = 0 := by
    intro p hp
    rw [Finset.mem_filter] at hp ⊢
    refine ⟨Finset.mem_univ p, ?_⟩
    by_contra hb
    have heq := singlePass_ne (show g p.1 p.2 ≠ 0 from hb)
    have hzero := hp.2
    omega
  rw [Finset.ssubset_iff_of_subset hsub]
  rcases Function.ne_iff.mp h with ⟨i, hi⟩
  rcases Function.ne_iff.mp hi with ⟨j, hij⟩
  rcases singlePass_changed hij with ⟨hz, -, hmem⟩
  refine ⟨(i, j), Finset.mem_filter.mpr ⟨Finset.mem_univ _, hz⟩, ?_⟩
  intro hmem2
  have h0 : singlePass g i j = 0 := (Finset.mem_filter.mp hmem2).2
  have h1 := (mem_pv_pos hmem).1
  omega

theorem singlePass_completion {t g : Grid} (ht : completionOf t g) :
    completionOf t (singlePass g) := by
  refine ⟨?_, ht.2.1, ht.2.2⟩
  intro i j hnz
  by_cases hch : singlePass g i j = g i j
  · rw [hch] at hnz ⊢
    exact ht.1 i j hnz
  · rcases singlePass_changed hch with ⟨hz, hcard, hmem⟩
    have htmem : t i j ∈ possible_values g i j := mem_pv_of_completion ht hz
    rcases Finset.card_eq_one.mp hcard with ⟨a, ha⟩
    rw [ha, Finset.mem_singleton] at htmem hmem
    rw [htmem, hmem]

/-! ### The propagation loop -/

theorem sspFuel_succ (n : ℕ) (g : Grid) :
    sspFuel (n + 1) g = if singlePass g = g then g else sspFuel n (singlePass g) := by
  show (if gridEq (singlePass g) g then g else sspFuel n (materialize (singlePass g))) = _
  rw [materialize_eq]
  exact if_congr gridEq_iff rfl rfl

theorem sspFuel_extends : ∀ (n : ℕ) (g : Grid), extendsG (sspFuel n g) g := by
  intro n
  induction n with
  | zero => exact fun g => extendsG_refl g
  | succ n ih =>
    intro g
    rw [sspFuel_succ]
    by_cases hfix : singlePass g = g
    · rw [if_pos hfix]
      exact extendsG_refl g
    · rw [if_neg hfix]
      exact extendsG_trans (ih (singlePass g)) (singlePass_extends g)

theorem sspFuel_zeros_le (n : ℕ) (g : Grid) : zeros (sspFuel n g) ≤ zeros g :=
  zeros_le_of_extends (sspFuel_extends n g)

theorem sspFuel_fix : ∀ (n : ℕ) (g : Grid), zeros g < n →
    singlePass (sspFuel n g) = sspFuel n g := by
  intro n
  induction n with
  | zero => omega
  | succ n ih =>
    intro g h
    rw [sspFuel_succ]
    by_cases hfix : singlePass g = g
    · rw [if_pos hfix]
      exact hfix
    · rw [if_neg hfix]
      refine ih (singlePass g) ?_
      have := zeros_singlePass_lt hfix
      omega

theorem sspFuel_completion : ∀ (n : ℕ) {t g : Grid}, completionOf t g →
    completionOf t (sspFuel n g) := by
  intro n
  induction n with
  | zero => exact fun ht => ht
  | succ n ih =>
    intro t g ht
    rw [sspFuel_succ]
    by_cases hfix : singlePass g = g
    · rw [if_pos hfix]
      exact ht
    · rw [if_neg hfix]
      exact ih (singlePass_completion ht)

theorem ssp_extends (g : Grid) : extendsG (solve_single_position g) g :=
  sspFuel_extends 82 g

theorem ssp_zeros_le (g : Grid) : zeros (solve_single_position g) ≤ zeros g :=
  sspFuel_zeros_le 82 g

theorem ssp_fix (g : Grid) :
    singlePass (solve_single_position g) = solve_single_position g :=
  sspFuel_fix 82 g (by have := zeros_le_81 g; omega)

theorem ssp_completion {t g : Grid} (ht : completionOf t g) :
    completionOf t (solve_single_position g) :=
  sspFuel_completion 82 ht

theorem sspItersFuel_succ (n : ℕ) (g : Grid) :
    sspItersFuel (n + 1) g =
      if singlePass g = g then 1 else 1 + sspItersFuel n (singlePass g) := by
  show (if gridEq (singlePass g) g then 1 else 1 + sspItersFuel n (singlePass g)) = _
  exact if_congr gridEq_iff rfl rfl

theorem sspItersFuel_le : ∀ (n : ℕ) (g : Grid), zeros g < n →
    sspItersFuel n g ≤ zeros g + 1 := by
  intro n
  induction n with
  | zero => omega
  | succ n ih =>
    intro g h
    rw [sspItersFuel_succ]
    by_cases hfix : singlePass g = g
    · rw [if_pos hfix]
      omega
    · rw [if_neg hfix]
      have hlt := zeros_singlePass_lt hfix
      have := ih (singlePass g) (by omega)
      omega

/-! ### The branch-selection minimum -/

theorem foldr_min_le_d (l : List ℕ) (d : ℕ) : l.foldr min d ≤ d := by
  induction l with
  | nil => exact le_refl d
  | cons a t ih => exact le_trans (min_le_right a (t.foldr min d)) ih

theorem foldr_min_le_mem {l : List ℕ} {x : ℕ} (d : ℕ) (h : x ∈ l) : l.foldr min d ≤ x := by
  induction l with
  | nil => exact absurd h (List.not_mem_nil x)
  | cons a t ih =>
    rcases List.mem_cons.mp h with rfl | hx
    · exact min_le_left x (t.foldr min d)
    · exact le_trans (min_le_right a (t.foldr min d)) (ih hx)

theorem foldr_min_cases (l : List ℕ) (d : ℕ) : l.foldr min d = d ∨ l.foldr min d ∈ l := by
  induction l with
  | nil => exact Or.inl rfl
  | cons a t ih =>
    rcases min_choice a (t.foldr min d) with hm | hm
    · right
      rw [List.foldr_cons, hm]
      exact List.mem_cons_self a t
    · rw [List.foldr_cons, hm]
      rcases ih with h | h
      · exact Or.inl h
      · exact Or.inr (List.mem_cons_of_mem a h)

theorem minPos_le_card {g : Grid} {i j : Fin 9} (h : 0 < (possible_values g i j).card) :
    minPos g ≤ (possible_values g i j).card := by
  have houter : minPos g ≤ rowMinPos g i :=
    foldr_min_le_mem 20 (List.mem_map.mpr ⟨i, List.mem_finRange i, rfl⟩)
  have hinner : rowMinPos g i ≤ (possible_values g i j).card := by
    refine foldr_min_le_mem 20 (List.mem_map.mpr ⟨j, ?_, rfl⟩)
    exact List.mem_filter.mpr ⟨List.mem_finRange j, decide_eq_true h⟩
  exact le_trans houter hinner

theorem minPos_attained {g : Grid} (h : minPos g ≠ 20) :
    ∃ i j, 0 < (possible_values g i j).card ∧ (possible_values g i j).card = minPos g := by
  rcases foldr_min_cases ((List.finRange 9).map fun i => rowMinPos g i) 20 with h20 | hmem
  · exact absurd h20 h
  · rcases List.mem_map.mp hmem with ⟨i, -, hi⟩
    rcases foldr_min_cases (((List.finRange 9).filter fun j =>
        0 < (possible_values g i j).card).map fun j => (possible_values g i j).card) 20
      with h20 | hmem2
    · rw [rowMinPos] at hi
      rw [h20] at hi
      exact absurd hi.symm h
    · rcases List.mem_map.mp hmem2 with ⟨j, hj, hcard⟩
      have hpos : 0 < (possible_values g i j).card :=
        of_decide_eq_true (List.mem_filter.mp hj).2
      refine ⟨i, j, hpos, ?_⟩
      rw [hcard]
      exact hi

theorem minPos_ne_20 {g : Grid} {i j : Fin 9} (h : 0 < (possible_values g i j).card) :
    minPos g ≠ 20 := by
  have h1 := minPos_le_card h
  have h2 := pv_card_le g i j
  omega

/-! ### Candidate enumeration, cloning, and the branch loop -/

theorem mem_candidateList {s : Finset ℕ} (hs : ∀ x ∈ s, x ∈ numbers) {v : ℕ} :
    v ∈ candidateList s ↔ v ∈ s := by
  unfold candidateList
  rw [List.mem_filter]
  constructor
  · rintro ⟨-, hv⟩
    exact of_decide_eq_true hv
  · intro hv
    refine ⟨List.mem_range.mpr ?_, decide_eq_true hv⟩
    have := mem_numbers.mp (hs v hv)
    omega

theorem update_self (g : Grid) (x y : Fin 9) (v : ℕ) : update g x y v x y = v := by
  show (if x = x ∧ y = y then v else g x y) = v
  rw [if_pos ⟨rfl, rfl⟩]

theorem extendsG_update {g : Grid} {x y : Fin 9} (v : ℕ) (hz : g x y = 0) :
    extendsG (update g x y v) g := by
  intro i j hnz
  have hne : ¬(i = x ∧ j = y) := by
    rintro ⟨rfl, rfl⟩
    exact hnz hz
  exact if_neg hne

theorem zeros_update_lt {g : Grid} {x y : Fin 9} {v : ℕ} (hz : g x y = 0) (hv : v ≠ 0) :
    zeros (update g x y v) < zeros g := by
  apply Finset.card_lt_card
  have hsub : ((Finset.univ : Finset (Fin 9 × Fin 9)).filter fun p => update g x y v p.1 p.2 = 0)
      ⊆ (Finset.univ : Finset (Fin 9 × Fin 9)).filter fun p => g p.1 p.2 = 0 := by
    intro p hp
    rw [Finset.mem_filter] at hp ⊢
    refine ⟨Finset.mem_univ p, ?_⟩
    have hp2 := hp.2
    by_cases hpe : p.1 = x ∧ p.2 = y
    · rw [show update g x y v p.1 p.2 = v from by
        show (if p.1 = x ∧ p.2 = y then v else g p.1 p.2) = v
        rw [if_pos hpe]] at hp2
      exact absurd hp2 hv
    · rw [show update g x y v p.1 p.2 = g p.1 p.2 from if_neg hpe] at hp2
      exact hp2
  rw [Finset.ssubset_iff_of_subset hsub]
  refine ⟨(x, y), Finset.mem_filter.mpr ⟨Finset.mem_univ _, hz⟩, ?_⟩
  intro hmem
  have h0 := (Finset.mem_filter.mp hmem).2
  rw [update_self] at h0
  exact hv h0

theorem tryBranches_cons (f : Grid → Grid) (g : Grid) (x y : Fin 9) (v : ℕ)
    (vs : List ℕ) : tryBranches f g x y (v :: vs) =
      if (filled (f (update g x y v)) && valid (f (update g x y v))) = true then
        f (update g x y v)
      else tryBranches f g x y vs := rfl

theorem tryBranches_cases (f : Grid → Grid) (g : Grid) (x y : Fin 9) (l : List ℕ) :
    tryBranches f g x y l = g ∨ ∃ v ∈ l, tryBranches f g x y l = f (update g x y v) ∧
      (filled (f (update g x y v)) && valid (f (update g x y v))) = true := by
  induction l with
  | nil => exact Or.inl rfl
  | cons v vs ih =>
    rw [tryBranches_cons]
    by_cases hfv : (filled (f (update g x y v)) && valid (f (update g x y v))) = true
    · rw [if_pos hfv]
      exact Or.inr ⟨v, List.mem_cons_self v vs, rfl, hfv⟩
    · rw [if_neg hfv]
      rcases ih with h | ⟨w, hw, hres, hok⟩
      · exact Or.inl h
      · exact Or.inr ⟨w, List.mem_cons_of_mem v hw, hres, hok⟩

theorem tryBranches_success (f : Grid → Grid) (g : Grid) (x y : Fin 9) {s : Grid} {v₀ : ℕ} :
    ∀ l : List ℕ, v₀ ∈ l → f (update g x y v₀) = s → (filled s && valid s) = true →
    (∀ v ∈ l, v ≠ v₀ →
      ¬((filled (f (update g x y v)) && valid (f (update g x y v))) = true)) →
    tryBranches f g x y l = s := by
  intro l
  induction l with
  | nil => exact fun h _ _ _ => absurd h (List.not_mem_nil v₀)
  | cons v vs ih =>
    intro hmem hfs hok hothers
    rw [tryBranches_cons]
    by_cases hv : v = v₀
    · subst hv
      rw [if_pos (by rw [hfs]; exact hok)]
      exact hfs
    · have hnot := hothers v (List.mem_cons_self v vs) hv
      rw [if_neg hnot]
      refine ih ?_ hfs hok ?_
      · rcases List.mem_cons.mp hmem with h | h
        · exact absurd h.symm hv
        · exact h
      · intro w hw hwne
        exact hothers w (List.mem_cons_of_mem v hw) hwne

/-! ### The first-minimal-cell scan -/

theorem firstMinCell_spec {g : Grid} {m : ℕ} {x y : Fin 9}
    (h : firstMinCell g m = some (x, y)) : (possible_values g x y).card = m := by
  unfold firstMinCell at h
  rcases List.exists_of_findSome?_eq_some h with ⟨i, hi, hfi⟩
  rcases Option.map_eq_some'.mp hfi with ⟨j, hj, hji⟩
  have hp := List.find?_some hj
  have hx : i = x ∧ j = y := Prod.mk.injEq i j x y ▸ hji
  rcases hx with ⟨rfl, rfl⟩
  exact beq_iff_eq.mp hp

theorem firstMinCell_isSome {g : Grid} {m : ℕ}
    (h : ∃ i j, (possible_values g i j).card = m) :
    ∃ x y, firstMinCell g m = some (x, y) := by
  rcases h with ⟨i, j, hij⟩
  cases hfs : firstMinCell g m with
  | some xy => exact ⟨xy.1, xy.2, rfl⟩
  | none =>
    exfalso
    unfold firstMinCell at hfs
    have hall := List.findSome?_eq_none_iff.mp hfs i (List.mem_finRange i)
    rw [Option.map_eq_none'] at hall
    have hnone := List.find?_eq_none.mp hall j (List.mem_finRange j)
    exact hnone (beq_iff_eq.mpr hij)

/-! ### The search -/

theorem solveFuel_succ (n : ℕ) (g : Grid) : solveFuel (n + 1) g =
    if filled (solve_single_position g) = true then solve_single_position g
    else if minPos (solve_single_position g) = 20 then solve_single_position g
    else
      (firstMinCell (solve_single_position g) (minPos (solve_single_position g))).elim
        (solve_single_position g) fun xy =>
          tryBranches (solveFuel n) (solve_single_position g) xy.1 xy.2
            (candidateList (possible_values (solve_single_position g) xy.1 xy.2)) := rfl

theorem completion_of_extends {t g' g : Grid} (hx : extendsG g' g)
    (ht : completionOf t g') : completionOf t g :=
  ⟨extendsG_trans ht.1 hx, ht.2.1, ht.2.2⟩

theorem completion_filled_eq {t g : Grid} (ht : completionOf t g)
    (hf : filled g = true) : g = t :=
  funext fun i => funext fun j => (ht.1 i j (filled_iff.mp hf i j)).symm

/-- `solve` only ever writes into empty cells: every cell that is non-zero on
entry keeps its value. -/
theorem solveFuel_extends : ∀ (n : ℕ) (g : Grid), extendsG (solveFuel n g) g := by
  intro n
  induction n with
  | zero => exact fun g => extendsG_refl g
  | succ n ih =>
    intro g
    rw [solveFuel_succ]
    by_cases hf : filled (solve_single_position g) = true
    · rw [if_pos hf]
      exact ssp_extends g
    · rw [if_neg hf]
      by_cases hm : minPos (solve_single_position g) = 20
      · rw [if_pos hm]
        exact ssp_extends g
      · rw [if_neg hm]
        cases hfm : firstMinCell (solve_single_position g)
            (minPos (solve_single_position g)) with
        | none =>
          rw [Option.elim_none]
          exact ssp_extends g
        | some xy =>
          rw [Option.elim_some]
          rcases tryBranches_cases (solveFuel n) (solve_single_position g) xy.1 xy.2
              (candidateList (possible_values (solve_single_position g) xy.1 xy.2))
            with hres | ⟨v, hvl, hres, -⟩
          · rw [hres]
            exact ssp_extends g
          · rw [hres]
            have hv : v ∈ possible_values (solve_single_position g) xy.1 xy.2 :=
              (mem_candidateList fun _ hx => mem_pv_numbers hx).mp hvl
            have hz : solve_single_position g xy.1 xy.2 = 0 := mem_pv_zero hv
            exact extendsG_trans
              (extendsG_trans (ih _) (extendsG_update v hz)) (ssp_extends g)

/-- A call of `solve` either returns the grid produced by the initial
propagation pass, or returns a grid that is filled and valid (an adopted
branch result). -/
theorem solveFuel_or (n : ℕ) (g : Grid) :
    solveFuel (n + 1) g = solve_single_position g ∨
      (filled (solveFuel (n + 1) g) && valid (solveFuel (n + 1) g)) = true := by
  rw [solveFuel_succ]
  by_cases hf : filled (solve_single_position g) = true
  · rw [if_pos hf]
    exact Or.inl rfl
  · rw [if_neg hf]
    by_cases hm : minPos (solve_single_position g) = 20
    · rw [if_pos hm]
      exact Or.inl rfl
    · rw [if_neg hm]
      cases hfm : firstMinCell (solve_single_position g)
          (minPos (solve_single_position g)) with
      | none =>
        rw [Option.elim_none]
        exact Or.inl rfl
      | some xy =>
        rw [Option.elim_some]
        rcases tryBranches_cases (solveFuel n) (solve_single_position g) xy.1 xy.2
            (candidateList (possible_values (solve_single_position g) xy.1 xy.2))
          with hres | ⟨v, hvl, hres, hok⟩
        · exact Or.inl hres
        · rw [hres]
          exact Or.inr hok

/-- The main search theorem: with sufficient fuel, `solve` on a grid with a
unique valid completion returns exactly that completion. -/
theorem solveFuel_unique : ∀ (n : ℕ) (g s : Grid), zeros g < n → uniqueCompletion s g →
    solveFuel n g = s := by
  intro n
  induction n with
  | zero => omega
  | succ n ih =>
    intro g s hz hu
    have hcomp1 : completionOf s (solve_single_position g) := ssp_completion hu.1
    have hext1 : extendsG (solve_single_position g) g := ssp_extends g
    have huniq1 : ∀ t, completionOf t (solve_single_position g) → t = s := fun t ht =>
      hu.2 t (completion_of_extends hext1 ht)
    have hzle : zeros (solve_single_position g) ≤ zeros g := ssp_zeros_le g
    rw [solveFuel_succ]
    by_cases hf : filled (solve_single_position g) = true
    · rw [if_pos hf]
      exact completion_filled_eq hcomp1 hf
    · rw [if_neg hf]
      have hzero : ∃ i j, solve_single_position g i j = 0 := by
        by_contra hno
        push_neg at hno
        exact hf (filled_iff.mpr hno)
      rcases hzero with ⟨i0, j0, hij0⟩
      have hs0 : s i0 j0 ∈ possible_values (solve_single_position g) i0 j0 :=
        mem_pv_of_completion hcomp1 hij0
      have hpos0 : 0 < (possible_values (solve_single_position g) i0 j0).card :=
        Finset.card_pos.mpr ⟨_, hs0⟩
      have hm20 : minPos (solve_single_position g) ≠ 20 := minPos_ne_20 hpos0
      rw [if_neg hm20]
      have hex : ∃ i j, (possible_values (solve_single_position g) i j).card =
          minPos (solve_single_position g) := by
        rcases minPos_attained hm20 with ⟨i, j, -, hc⟩
        exact ⟨i, j, hc⟩
      rcases firstMinCell_isSome hex with ⟨x, y, hfm⟩
      rw [hfm, Option.elim_some]
      have hcardxy : (possible_values (solve_single_position g) x y).card =
          minPos (solve_single_position g) := firstMinCell_spec hfm
      have hposxy : 0 < (possible_values (solve_single_position g) x y).card := by
        rcases minPos_attained hm20 with ⟨i, j, hpos', hc⟩
        omega
      have hxyzero : solve_single_position g x y = 0 := by
        rcases Finset.card_pos.mp hposxy with ⟨w, hw⟩
        exact mem_pv_zero hw
      have hsxy : s x y ∈ possible_values (solve_single_position g) x y :=
        mem_pv_of_completion hcomp1 hxyzero
      have hsxy_list : s x y ∈ candidateList (possible_values (solve_single_position g) x y) :=
        (mem_candidateList fun _ hx => mem_pv_numbers hx).mpr hsxy
      have hsxy_nz : s x y ≠ 0 := by
        have := mem_pv_pos hsxy
        omega
      have hzupdate : zeros (update (solve_single_position g) x y (s x y)) <
          zeros (solve_single_position g) := zeros_update_lt hxyzero hsxy_nz
      have hgood : solveFuel n (update (solve_single_position g) x y (s x y)) = s := by
        refine ih _ s (by omega) ⟨⟨?_, hcomp1.2.1, hcomp1.2.2⟩, ?_⟩
        · intro i j hnz
          by_cases hpe : i = x ∧ j = y
          · rcases hpe with ⟨rfl, rfl⟩
            rw [update_self]
          · rw [show update (solve_single_position g) x y (s x y) i j =
                solve_single_position g i j from if_neg hpe] at hnz ⊢
            exact hcomp1.1 i j hnz
        · intro t ht
          exact huniq1 t (completion_of_extends (extendsG_update _ hxyzero) ht)
      have hbad : ∀ v ∈ candidateList (possible_values (solve_single_position g) x y),
          v ≠ s x y →
          ¬((filled (solveFuel n (update (solve_single_position g) x y v)) &&
             valid (solveFuel n (update (solve_single_position g) x y v))) = true) := by
        intro v hvl hvne hok
        rw [Bool.and_eq_true] at hok
        have hv : v ∈ possible_values (solve_single_position g) x y :=
          (mem_candidateList fun _ hx => mem_pv_numbers hx).mp hvl
        have hvnz : v ≠ 0 := by
          have := mem_pv_pos hv
          omega
        have hcext : extendsG (solveFuel n (update (solve_single_position g) x y v))
            (update (solve_single_position g) x y v) := solveFuel_extends n _
        have hcomp_c : completionOf (solveFuel n (update (solve_single_position g) x y v))
            (solve_single_position g) :=
          completion_of_extends (extendsG_update _ hxyzero) ⟨hcext, hok.1, hok.2⟩
        have hceq := huniq1 _ hcomp_c
        have hune : update (solve_single_position g) x y v x y ≠ 0 := by
          rw [update_self]
          exact hvnz
        have hval : solveFuel n (update (solve_single_position g) x y v) x y = v := by
          rw [hcext x y hune, update_self]
        rw [hceq] at hval
        exact hvne hval.symm
      have hfv : (filled s && valid s) = true := by
        rw [Bool.and_eq_true]
        exact ⟨hu.1.2.1, hu.1.2.2⟩
      exact tryBranches_success (solveFuel n) (solve_single_position g) x y _
        hsxy_list hgood hfv hbad

/-! ### The validity check versus the spec's invariant -/

theorem groupCheck_iff_spec (v : Fin 9 → ℕ) : groupCheck v = true ↔ groupSpecOK v := by
  constructor
  · intro h
    refine ⟨(groupCheck_strong h).2, ?_⟩
    unfold groupCheck at h
    exact beq_iff_eq.mp h
  · intro h
    unfold groupCheck
    exact beq_iff_eq.mpr h.2

theorem valid_iff_spec (g : Grid) : valid g = true ↔ validSpec g := by
  rw [valid_iff]
  unfold validSpec
  constructor
  · intro h
    exact ⟨fun i => (groupCheck_iff_spec _).mp (h.1 i),
      fun i => (groupCheck_iff_spec _).mp (h.2.1 i),
      fun i => (groupCheck_iff_spec _).mp (h.2.2 i)⟩
  · intro h
    exact ⟨fun i => (groupCheck_iff_spec _).mpr (h.1 i),
      fun i => (groupCheck_iff_spec _).mpr (h.2.1 i),
      fun i => (groupCheck_iff_spec _).mpr (h.2.2 i)⟩

set_option allowUnsafeReducibility true in
attribute [semireducible] possible_values

set_option maxHeartbeats 4000000 in
theorem sspIters_gAllZero : sspIters gAllZero = 1 := by decide

set_option allowUnsafeReducibility true in
attribute [irreducible] possible_values

/-! ### The claims -/

/-- C1: for every 9×9 grid that has a unique valid completion, `solve()`
terminates (any fuel beyond the number of empty cells gives the same result)
and leaves the grid filled and valid, and the resulting grid equals that
unique completion. -/
theorem claim_C1 (g s : Grid) (hu : uniqueCompletion s g) :
    (∀ n, zeros g < n → solveFuel n g = s) ∧ solve g = s ∧
      filled (solve g) = true ∧ valid (solve g) = true := by
  have hall : ∀ n, zeros g < n → solveFuel n g = s := fun n hn =>
    solveFuel_unique n g s hn hu
  have hsolve : solve g = s := hall 82 (by have := zeros_le_81 g; omega)
  refine ⟨hall, hsolve, ?_, ?_⟩
  · rw [hsolve]
    exact hu.1.2.1
  · rw [hsolve]
    exact hu.1.2.2

/-- C2: the block-coordinate mapping `(g, i) ↦ (i/3 + 3*(g/3), i%3 + 3*(g%3))`
is injective on the 81 pairs of 0–8 × 0–8 (hence produces 81 distinct
coordinate pairs), maps `(0,3) ↦ (1,0)`, `(2,8) ↦ (2,8)`, `(4,0) ↦ (3,3)`,
`(6,4) ↦ (7,1)`, and agrees with the stated arithmetic form. -/
theorem claim_C2 :
    (∀ a b c d : Fin 9, group_coordinate_to_row_coordinate a.val b.val =
      group_coordinate_to_row_coordinate c.val d.val → a = c ∧ b = d) ∧
    group_coordinate_to_row_coordinate 0 3 = (1, 0) ∧
    group_coordinate_to_row_coordinate 2 8 = (2, 8) ∧
    group_coordinate_to_row_coordinate 4 0 = (3, 3) ∧
    group_coordinate_to_row_coordinate 6 4 = (7, 1) ∧
    (∀ a b : Fin 9, group_coordinate_to_row_coordinate a.val b.val =
      (b.val / 3 + 3 * (a.val / 3), b.val % 3 + 3 * (a.val % 3))) := by
  refine ⟨?_, by decide, by decide, by decide, by decide, ?_⟩
  · intro a b c d h
    unfold group_coordinate_to_row_coordinate at h
    have h1 := congrArg Prod.fst h
    have h2 := congrArg Prod.snd h
    simp only [] at h1 h2
    have ha := a.isLt
    have hb := b.isLt
    have hc := c.isLt
    have hd := d.isLt
    constructor <;> apply Fin.ext <;> omega
  · intro a b
    unfold group_coordinate_to_row_coordinate
    have ha := a.isLt
    refine Prod.ext ?_ rfl
    show b.val / 3 + (a.val - a.val % 3) = b.val / 3 + 3 * (a.val / 3)
    omega

/-- C3: after `solve_single_position()` returns, either the grid is fully
filled or every remaining empty cell has a candidate set of size 0 or of
size at least 2 (never exactly 1). -/
theorem claim_C3 (g : Grid) : filled (solve_single_position g) = true ∨
    ∀ i j, solve_single_position g i j = 0 →
      (possible_values (solve_single_position g) i j).card = 0 ∨
      2 ≤ (possible_values (solve_single_position g) i j).card := by
  right
  intro i j hz
  by_contra hc
  push_neg at hc
  have hcard1 : (possible_values (solve_single_position g) i j).card = 1 := by omega
  have hmem : singlePass (solve_single_position g) i j ∈
      possible_values (solve_single_position g) i j := by
    unfold singlePass
    rw [dif_pos ⟨hcard1, hz⟩]
    exact Finset.min'_mem _ _
  have hge := (mem_pv_pos hmem).1
  have hfix := congrFun (congrFun (ssp_fix g) i) j
  omega

/-- C4 (amended): on a valid, partially filled grid, `solve_single_position()`
never increases the number of empty cells.  (Validity itself is not always
preserved: see the counterexample.) -/
theorem claim_C4 (g : Grid) (hval : valid g = true) (hfil : filled g = false) :
    zeros (solve_single_position g) ≤ zeros g := ssp_zeros_le g

/-- C5: the propagation loop of `solve_single_position()` terminates (a fixed
point of the pass is reached) and its `while` body executes at most 81
times. -/
theorem claim_C5 (g : Grid) : sspIters g ≤ 81 ∧
    singlePass (solve_single_position g) = solve_single_position g := by
  refine ⟨?_, ssp_fix g⟩
  by_cases hz : zeros g ≤ 80
  · have := sspItersFuel_le 82 g (by omega)
    unfold sspIters
    omega
  · have h81 : zeros g = 81 := by
      have := zeros_le_81 g
      omega
    rw [zeros_eq_81 h81, sspIters_gAllZero]
    omega

/-- C6: `get_possible_values` maps every filled cell to the empty set and
every empty cell to the three-way intersection of the missing-digit sets of
its row, column and block; in this embedding it is by construction a pure
function of the grid. -/
theorem claim_C6 (g : Grid) (hbound : ∀ i j, g i j ≤ 9) :
    ∀ i j, possible_values g i j = possible_values_spec g i j := fun i j =>
  pv_eq_spec g i j

/-- C7: `valid` is true iff every one of the 27 groups has pairwise-distinct
non-zero entries and as many missing digits as zero cells; consequently
writing a digit that already occurs elsewhere in the same row, column or
block of a valid grid makes `valid` false. -/
theorem claim_C7 (g : Grid) (hbound : ∀ i j, g i j ≤ 9) :
    (valid g = true ↔ validSpec g) ∧
    (∀ (i j j' : Fin 9) (w : ℕ), valid g = true → j ≠ j' → w ≠ 0 → g i j' = w →
      valid (update g i j w) = false) ∧
    (∀ (i i' j : Fin 9) (w : ℕ), valid g = true → i ≠ i' → w ≠ 0 → g i' j = w →
      valid (update g i j w) = false) ∧
    (∀ (i j i' j' : Fin 9) (w : ℕ), valid g = true →
      blockIdx i j = blockIdx i' j' → ¬(i = i' ∧ j = j') → w ≠ 0 → g i' j' = w →
      valid (update g i j w) = false) := by
  refine ⟨valid_iff_spec g, ?_, ?_, ?_⟩
  · intro i j j' w hval hne hw hg
    by_contra hcon
    rw [Bool.not_eq_false] at hcon
    have hspec := (valid_iff_spec _).mp hcon
    have hdup := (hspec.1 i).1 j j'
    have hjj : update g i j w i j = w := update_self g i j w
    have hjj' : update g i j w i j' = g i j' := by
      have : ¬(i = i ∧ j' = j) := fun hp => hne hp.2.symm
      exact if_neg this
    have : j = j' := by
      apply hdup
      · show update g i j w i j ≠ 0
        rw [hjj]
        exact hw
      · show update g i j w i j = update g i j w i j'
        rw [hjj, hjj', hg]
    exact hne this
  · intro i i' j w hval hne hw hg
    by_contra hcon
    rw [Bool.not_eq_false] at hcon
    have hspec := (valid_iff_spec _).mp hcon
    have hdup := (hspec.2.1 j).1 i i'
    have hii : update g i j w i j = w := update_self g i j w
    have hii' : update g i j w i' j = g i' j := by
      have : ¬(i' = i ∧ j = j) := fun hp => hne hp.1.symm
      exact if_neg this
    have : i = i' := by
      apply hdup
      · show update g i j w i j ≠ 0
        rw [hii]
        exact hw
      · show update g i j w i j = update g i j w i' j
        rw [hii, hii', hg]
    exact hne this
  · intro i j i' j' w hval hblk hne hw hg
    by_contra hcon
    rw [Bool.not_eq_false] at hcon
    have hspec := (valid_iff_spec _).mp hcon
    have hdup := (hspec.2.2 (blockIdx i j)).1 (innerIdx i j) (innerIdx i' j')
    have hij : update g i j w i j = w := update_self g i j w
    have hij' : update g i j w i' j' = g i' j' := by
      have : ¬(i' = i ∧ j' = j) := by
        rintro ⟨rfl, rfl⟩
        exact hne ⟨rfl, rfl⟩
      exact if_neg this
    have hinner : innerIdx i j = innerIdx i' j' := by
      apply hdup
      · show groups (update g i j w) (blockIdx i j) (innerIdx i j) ≠ 0
        rw [groups_blockIdx, hij]
        exact hw
      · show groups (update g i j w) (blockIdx i j) (innerIdx i j) =
          groups (update g i j w) (blockIdx i j) (innerIdx i' j')
        rw [groups_blockIdx, hblk, groups_blockIdx, hij, hij', hg]
    apply hne
    constructor
    · calc i = cellRow (blockIdx i j) (innerIdx i j) := (cellRow_blockIdx i j).symm
        _ = cellRow (blockIdx i' j') (innerIdx i' j') := by rw [hblk, hinner]
        _ = i' := cellRow_blockIdx i' j'
    · calc j = cellCol (blockIdx i j) (innerIdx i j) := (cellCol_blockIdx i j).symm
        _ = cellCol (blockIdx i' j') (innerIdx i' j') := by rw [hblk, hinner]
        _ = j' := cellCol_blockIdx i' j'

/-- C8: the blocks view agrees with the block-coordinate mapping on every
grid, and on the fixed known test input it equals the precomputed expected
block-view matrix. -/
theorem claim_C8 :
    (∀ (g : Grid) (grp idx : Fin 9),
      groups g grp idx =
        gridGet g (group_coordinate_to_row_coordinate grp.val idx.val).1
          (group_coordinate_to_row_coordinate grp.val idx.val).2) ∧
    (∀ grp idx : Fin 9, groups INIT_FIELD grp idx = INIT_FIELD_GROUPS grp idx) := by
  constructor
  · intro g grp idx
    have h1 := grp.isLt
    have h2 := idx.isLt
    have hb : idx.val / 3 + (grp.val - grp.val % 3) < 9 ∧
        idx.val % 3 + 3 * (grp.val % 3) < 9 := ⟨by omega, by omega⟩
    unfold gridGet group_coordinate_to_row_coordinate
    rw [dif_pos hb]
    unfold groups
    congr 1
    · exact Fin.ext (by
        show 3 * (grp.val / 3) + idx.val / 3 = idx.val / 3 + (grp.val - grp.val % 3)
        omega)
  · decide

/-- C9: whenever `solve()` fails (its result is not filled-and-valid), the
grid is left exactly in the state produced by the initial propagation pass —
the failed recursive branches, operating on clones, change nothing else. -/
theorem claim_C9 (g : Grid)
    (h : ¬(filled (solve g) = true ∧ valid (solve g) = true)) :
    solve g = solve_single_position g := by
  have h82 : solve g = solveFuel (81 + 1) g := rfl
  rcases solveFuel_or 81 g with hres | hok
  · rw [h82, hres]
  · exfalso
    rw [Bool.and_eq_true] at hok
    rw [← h82] at hok
    exact h hok

/-- C10: neither `solve()` nor `solve_single_position()` ever changes a cell
that is non-zero at call time, and `solve()` on an already fully filled grid
(even an invalid one) returns it unchanged. -/
theorem claim_C10 (g : Grid) :
    (∀ i j, g i j ≠ 0 →
      solve_single_position g i j = g i j ∧ solve g i j = g i j) ∧
    (filled g = true → solve g = g) := by
  constructor
  · intro i j h
    exact ⟨ssp_extends g i j h, solveFuel_extends 82 g i j h⟩
  · intro hf
    have hsp : singlePass g = g :=
      funext fun i => funext fun j => singlePass_ne (filled_iff.mp hf i j)
    have hssp : solve_single_position g = g := by
      show sspFuel 82 g = g
      rw [show (82 : ℕ) = 81 + 1 from rfl, sspFuel_succ, if_pos hsp]
    show solveFuel 82 g = g
    rw [show (82 : ℕ) = 81 + 1 from rfl, solveFuel_succ, hssp, if_pos hf]

/-! ### Witnesses and counterexamples on concrete grids -/

set_option allowUnsafeReducibility true in
attribute [semireducible] possible_values

set_option maxHeartbeats 4000000 in
theorem claim_C1_witness :
    uniqueCompletion sFull sFull ∧ (solve sFull = sFull ∧
      filled (solve sFull) = true ∧ valid (solve sFull) = true) := by
  have hnz : ∀ i j, sFull i j ≠ 0 := by decide
  have hu : uniqueCompletion sFull sFull :=
    ⟨⟨fun i j _ => rfl, by decide, by decide⟩,
     fun t ht => funext fun i => funext fun j => ht.1 i j (hnz i j)⟩
  exact ⟨hu, (claim_C1 sFull sFull hu).2⟩

theorem claim_C3_witness :
    filled (solve_single_position gAll5) = true ∨
    ∀ i j, solve_single_position gAll5 i j = 0 →
      (possible_values (solve_single_position gAll5) i j).card = 0 ∨
      2 ≤ (possible_values (solve_single_position gAll5) i j).card :=
  claim_C3 gAll5

set_option maxHeartbeats 8000000 in
/-- The original C4 claim is false on the code: `gC4` is valid and partially
filled, yet one propagation pass commits the digit `5` into both `(0,0)` and
`(0,1)` of row 0 (their candidate sets are both `{5}` against the stale
snapshot), so the resulting grid is invalid. -/
theorem claim_C4_counterexample :
    valid gC4 = true ∧ filled gC4 = false ∧
    valid (solve_single_position gC4) = false := by decide

set_option maxHeartbeats 4000000 in
theorem claim_C4_witness :
    valid gC4 = true ∧ filled gC4 = false ∧
    zeros (solve_single_position gC4) ≤ zeros gC4 :=
  ⟨by decide, by decide, claim_C4 gC4 (by decide) (by decide)⟩

theorem claim_C5_witness :
    sspIters gAllZero ≤ 81 ∧
    singlePass (solve_single_position gAllZero) = solve_single_position gAllZero :=
  claim_C5 gAllZero

set_option maxHeartbeats 4000000 in
theorem claim_C6_witness :
    (∀ i j, INIT_FIELD i j ≤ 9) ∧
    ∀ i j, possible_values INIT_FIELD i j = possible_values_spec INIT_FIELD i j :=
  ⟨by decide, claim_C6 INIT_FIELD (by decide)⟩

set_option maxHeartbeats 4000000 in
theorem claim_C7_witness :
    (∀ i j, INIT_FIELD i j ≤ 9) ∧
    ((valid INIT_FIELD = true ↔ validSpec INIT_FIELD) ∧
     (∀ (i j j' : Fin 9) (w : ℕ), valid INIT_FIELD = true → j ≠ j' → w ≠ 0 →
       INIT_FIELD i j' = w → valid (update INIT_FIELD i j w) = false) ∧
     (∀ (i i' j : Fin 9) (w : ℕ), valid INIT_FIELD = true → i ≠ i' → w ≠ 0 →
       INIT_FIELD i' j = w → valid (update INIT_FIELD i j w) = false) ∧
     (∀ (i j i' j' : Fin 9) (w : ℕ), valid INIT_FIELD = true →
       blockIdx i j = blockIdx i' j' → ¬(i = i' ∧ j = j') → w ≠ 0 →
       INIT_FIELD i' j' = w → valid (update INIT_FIELD i j w) = false)) :=
  ⟨by decide, claim_C7 INIT_FIELD (by decide)⟩

set_option maxHeartbeats 8000000 in
theorem claim_C9_witness :
    ¬(filled (solve gAll5) = true ∧ valid (solve gAll5) = true) ∧
    solve gAll5 = solve_single_position gAll5 := by
  have h : ¬(filled (solve gAll5) = true ∧ valid (solve gAll5) = true) := by decide
  exact ⟨h, claim_C9 gAll5 h⟩

theorem claim_C10_witness :
    (gAll5 0 0 ≠ 0 ∧ solve_single_position gAll5 0 0 = gAll5 0 0 ∧
      solve gAll5 0 0 = gAll5 0 0) ∧
    (filled gAll5 = true ∧ solve gAll5 = gAll5) :=
  ⟨⟨by decide, ((claim_C10 gAll5).1 0 0 (by decide)).1,
    ((claim_C10 gAll5).1 0 0 (by decide)).2⟩,
   by decide, (claim_C10 gAll5).2 (by decide)⟩
